import Mathlib

/-!
Verification development for the tablet storage-engine core of this
repository (per-tablet MVCC, write path, rowset lifecycle, flush/compaction
swap protocol). The repository sources under src/ are C++ headers
(src/src/kudu/tablet/tablet.h, src/src/tablet/layer.h); the corresponding
implementation files are not part of the repository snapshot, so operation
bodies are modelled from the specification, faithful to its words, while
every signature and documented behavior present in the headers is kept.
-/

namespace Kudu

/-- Status codes returned across the tablet boundary (spec section 6). Only
the codes needed by the modelled operations appear here. -/
inductive Status where
  | OK
  | AlreadyPresent
  | NotFound
  | InvalidTimestamp
  deriving DecidableEq, Repr

/-- Modelled from the spec: the MVCC manager state (spec section 4.1). The
manager implementation is missing from src/ (tablet.h line 432 only declares
the MvccManager member). It maintains a timestamp counter next_ts and the
ordered set in_flight of issued-but-unresolved timestamps. -/
structure MvccManager where
  next_ts : Nat
  in_flight : List Nat
  deriving DecidableEq, Repr

/-- Initial manager: no timestamp issued yet, none in flight. Timestamps are
issued starting from 1. -/
def MvccManager.init : MvccManager := ⟨1, []⟩

/-- Smallest element of a list of timestamps, if any. -/
def minTs (l : List Nat) : Option Nat :=
  l.foldr (fun t acc => match acc with
    | none => some t
    | some m => some (if t ≤ m then t else m)) none

/-- Modelled from the spec: safe_ts is equal to the smallest in-flight
timestamp minus one, or next_ts - 1 if none is in flight (spec section 4.1). -/
def MvccManager.safe_ts (s : MvccManager) : Nat :=
  match minTs s.in_flight with
  | some m => m - 1
  | none => s.next_ts - 1

/-- An MVCC snapshot: immutable pair (commitHighWater, inFlightSet)
(spec section 3). -/
structure MvccSnapshot where
  commitHighWater : Nat
  inFlightSet : List Nat
  deriving DecidableEq, Repr

/-- Modelled from the spec: TakeSnapshot returns (safe_ts, copy(in_flight)). -/
def MvccManager.takeSnapshot (s : MvccManager) : MvccSnapshot :=
  ⟨s.safe_ts, s.in_flight⟩

/-- A timestamp t is visible to a snapshot iff t ≤ commitHighWater and
t ∉ inFlightSet (spec section 3). -/
def MvccSnapshot.isVisible (snap : MvccSnapshot) (t : Nat) : Bool :=
  decide (t ≤ snap.commitHighWater) && !(snap.inFlightSet.contains t)

/-- Modelled from the spec: StartTransaction atomically produces a fresh
timestamp strictly greater than every previously issued one and inserts it
into in_flight (spec section 4.1; declared as Tablet::StartTransaction in
tablet.h lines 84-114). Returns the new state and the assigned timestamp. -/
def MvccManager.startTransaction (s : MvccManager) : MvccManager × Nat :=
  (⟨s.next_ts + 1, s.next_ts :: s.in_flight⟩, s.next_ts)

/-- The current high-water mark excluding in-flight transactions:
next_ts - 1, the largest timestamp issued so far. -/
def MvccManager.highWaterExclInFlight (s : MvccManager) : Nat := s.next_ts - 1

/-- Modelled from the spec: StartTransactionAt(ts) uses the caller-supplied
timestamp and fails with InvalidTimestamp if ts is not strictly greater than
the current high-water excluding in-flight (spec section 4.1; declared as
Tablet::StartTransactionAtTimestamp in tablet.h lines 118-119). -/
def MvccManager.startTransactionAtTimestamp (s : MvccManager) (ts : Nat) :
    Except Status MvccManager :=
  if s.highWaterExclInFlight < ts then
    .ok ⟨ts + 1, ts :: s.in_flight⟩
  else
    .error .InvalidTimestamp

/-- Modelled from the spec: Commit(ts) removes ts from in_flight
(spec section 4.1). -/
def MvccManager.commitTransaction (s : MvccManager) (ts : Nat) : MvccManager :=
  ⟨s.next_ts, s.in_flight.erase ts⟩

/-- Modelled from the spec: Abort(ts) removes ts from in_flight; abort leaves
no durable trace, so on the manager state it acts exactly like Commit
(spec section 4.1). -/
def MvccManager.abortTransaction (s : MvccManager) (ts : Nat) : MvccManager :=
  ⟨s.next_ts, s.in_flight.erase ts⟩

/-- Manager states reachable from the initial state by the operations of
spec section 4.1. -/
inductive MvccReachable : MvccManager → Prop where
  | init : MvccReachable MvccManager.init
  | start {s} : MvccReachable s → MvccReachable (s.startTransaction).1
  | startAt {s s' : MvccManager} {ts : Nat} : MvccReachable s →
      s.startTransactionAtTimestamp ts = .ok s' → MvccReachable s'
  | commit {s} (ts : Nat) : MvccReachable s →
      MvccReachable (s.commitTransaction ts)
  | abort {s} (ts : Nat) : MvccReachable s →
      MvccReachable (s.abortTransaction ts)

/-- A timestamp has been issued in state s if it lies in the range the
manager has handed out so far. -/
def MvccManager.issued (s : MvccManager) (t : Nat) : Prop :=
  0 < t ∧ t < s.next_ts

/-- A timestamp is committed (resolved) in state s: it was issued and is no
longer in flight. Commit and Abort act identically on the manager state
(abort leaves no durable trace), so the manager does not distinguish an
aborted timestamp from a committed one. -/
def MvccManager.committed (s : MvccManager) (t : Nat) : Prop :=
  s.issued t ∧ t ∉ s.in_flight

/-- Structural invariant of the MVCC manager: every in-flight timestamp has
been issued, and the counter starts at one and never goes below it. -/
def MvccManager.Inv (s : MvccManager) : Prop :=
  (∀ t ∈ s.in_flight, 0 < t ∧ t < s.next_ts) ∧ 1 ≤ s.next_ts

lemma minTs_mem {l : List Nat} : ∀ {m : Nat}, minTs l = some m → m ∈ l := by
  induction l with
  | nil => intro m h; simp [minTs] at h
  | cons a tl ih =>
    intro m h
    simp only [minTs, List.foldr_cons] at h
    rw [show List.foldr _ none tl = minTs tl from rfl] at h
    cases htl : minTs tl with
    | none =>
      rw [htl] at h
      simp only [Option.some.injEq] at h
      subst h
      exact List.mem_cons_self _ _
    | some m' =>
      rw [htl] at h
      simp only [Option.some.injEq] at h
      split at h
      · subst h; exact List.mem_cons_self _ _
      · subst h; exact List.mem_cons_of_mem _ (ih htl)

lemma mvcc_inv {s : MvccManager} (h : MvccReachable s) : s.Inv := by
  induction h with
  | init => exact ⟨by simp [MvccManager.init], by simp [MvccManager.init]⟩
  | start hr ih =>
    obtain ⟨hin, hnext⟩ := ih
    refine ⟨?_, by show 1 ≤ _ + 1; omega⟩
    intro t ht
    have ht' : t = _ ∨ t ∈ _ := List.mem_cons.mp ht
    rcases ht' with rfl | ht'
    · exact ⟨hnext, Nat.lt_succ_self _⟩
    · exact ⟨(hin t ht').1, Nat.lt_succ_of_lt (hin t ht').2⟩
  | startAt hr heq ih =>
    obtain ⟨hin, hnext⟩ := ih
    rename_i s₀ s₁ ts
    unfold MvccManager.startTransactionAtTimestamp MvccManager.highWaterExclInFlight at heq
    split at heq
    · rename_i hlt
      cases heq
      refine ⟨?_, by show 1 ≤ ts + 1; omega⟩
      intro t ht
      have ht' : t = ts ∨ t ∈ s₀.in_flight := List.mem_cons.mp ht
      rcases ht' with rfl | ht'
      · exact ⟨by omega, by show t < t + 1; omega⟩
      · obtain ⟨h1, h2⟩ := hin t ht'
        exact ⟨h1, by show t < ts + 1; omega⟩
    · cases heq
  | commit ts hr ih =>
    obtain ⟨hin, hnext⟩ := ih
    exact ⟨fun t ht => hin t (List.mem_of_mem_erase ht), hnext⟩
  | abort ts hr ih =>
    obtain ⟨hin, hnext⟩ := ih
    exact ⟨fun t ht => hin t (List.mem_of_mem_erase ht), hnext⟩

lemma safe_ts_lt_next {s : MvccManager} (h : s.Inv) :
    s.safe_ts < s.next_ts := by
  obtain ⟨hin, hnext⟩ := h
  unfold MvccManager.safe_ts
  cases hm : minTs s.in_flight with
  | none => show s.next_ts - 1 < s.next_ts; omega
  | some m =>
    have := hin m (minTs_mem hm)
    show m - 1 < s.next_ts
    omega

lemma minTs_cons (a : Nat) (tl : List Nat) :
    minTs (a :: tl) = some (match minTs tl with
      | none => a
      | some m => if a ≤ m then a else m) := by
  simp only [minTs, List.foldr_cons]
  rw [show List.foldr _ none tl = minTs tl from rfl]
  cases minTs tl <;> rfl

lemma minTs_le {l : List Nat} : ∀ {m : Nat}, minTs l = some m → ∀ x ∈ l, m ≤ x := by
  induction l with
  | nil => intro m h; simp [minTs] at h
  | cons a tl ih =>
    intro m h x hx
    rw [minTs_cons] at h
    simp only [Option.some.injEq] at h
    rcases List.mem_cons.mp hx with rfl | hx
    · cases htl : minTs tl with
      | none => simp only [htl] at h; omega
      | some m' =>
        simp only [htl] at h
        split at h <;> omega
    · cases htl : minTs tl with
      | none =>
        exfalso
        have htl' : tl = [] := by
          cases tl with
          | nil => rfl
          | cons b tb => rw [minTs_cons] at htl; cases htl
        subst htl'
        cases hx
      | some m' =>
        have hm' := ih htl x hx
        simp only [htl] at h
        split at h <;> omega

/-- C3: every snapshot returned by TakeSnapshot is the pair
(safe_ts, copy of in_flight), where safe_ts is the smallest in-flight
timestamp minus one (or next_ts - 1 when none is in flight); in every
reachable manager state, every positive timestamp at or below the snapshot
commitHighWater is either committed or in the snapshot inFlightSet, and a
timestamp is visible to the snapshot iff it is at most commitHighWater and
not in inFlightSet. -/
theorem takeSnapshot_returns_safe_ts_and_inflight (s : MvccManager)
    (hr : MvccReachable s) :
    s.takeSnapshot = ⟨s.safe_ts, s.in_flight⟩ ∧
    (∀ m, minTs s.in_flight = some m →
        s.safe_ts = m - 1 ∧ m ∈ s.in_flight ∧ ∀ x ∈ s.in_flight, m ≤ x) ∧
    (minTs s.in_flight = none → s.safe_ts = s.next_ts - 1) ∧
    (∀ t, 0 < t → t ≤ s.takeSnapshot.commitHighWater →
        s.committed t ∨ t ∈ s.takeSnapshot.inFlightSet) ∧
    (∀ t, s.takeSnapshot.isVisible t = true ↔
        t ≤ s.takeSnapshot.commitHighWater ∧ t ∉ s.takeSnapshot.inFlightSet) := by
  have hinv := mvcc_inv hr
  refine ⟨rfl, ?_, ?_, ?_, ?_⟩
  · intro m hm
    refine ⟨?_, minTs_mem hm, minTs_le hm⟩
    unfold MvccManager.safe_ts
    rw [hm]
  · intro hm
    unfold MvccManager.safe_ts
    rw [hm]
  · intro t ht hle
    have hsafe : s.safe_ts < s.next_ts := safe_ts_lt_next hinv
    have hle' : t ≤ s.safe_ts := hle
    by_cases hmem : t ∈ s.in_flight
    · exact Or.inr hmem
    · exact Or.inl ⟨⟨ht, by omega⟩, hmem⟩
  · intro t
    simp [MvccSnapshot.isVisible, MvccManager.takeSnapshot]

/-- Witness for C3 at a concrete reachable state: the manager after one
StartTransaction from the initial state. -/
theorem takeSnapshot_returns_safe_ts_and_inflight_witness :
    (MvccManager.init.startTransaction).1.takeSnapshot =
      ⟨(MvccManager.init.startTransaction).1.safe_ts,
       (MvccManager.init.startTransaction).1.in_flight⟩ ∧
    (∀ m, minTs (MvccManager.init.startTransaction).1.in_flight = some m →
        (MvccManager.init.startTransaction).1.safe_ts = m - 1 ∧
        m ∈ (MvccManager.init.startTransaction).1.in_flight ∧
        ∀ x ∈ (MvccManager.init.startTransaction).1.in_flight, m ≤ x) ∧
    (minTs (MvccManager.init.startTransaction).1.in_flight = none →
        (MvccManager.init.startTransaction).1.safe_ts =
          (MvccManager.init.startTransaction).1.next_ts - 1) ∧
    (∀ t, 0 < t →
        t ≤ (MvccManager.init.startTransaction).1.takeSnapshot.commitHighWater →
        (MvccManager.init.startTransaction).1.committed t ∨
        t ∈ (MvccManager.init.startTransaction).1.takeSnapshot.inFlightSet) ∧
    (∀ t, (MvccManager.init.startTransaction).1.takeSnapshot.isVisible t = true ↔
        t ≤ (MvccManager.init.startTransaction).1.takeSnapshot.commitHighWater ∧
        t ∉ (MvccManager.init.startTransaction).1.takeSnapshot.inFlightSet) :=
  takeSnapshot_returns_safe_ts_and_inflight _
    (MvccReachable.start MvccReachable.init)

/-- The operations of the MVCC manager interface (spec section 4.1), as one
inductive so that failure behavior can be quantified over all of them. -/
inductive MvccOp where
  | start
  | startAt (ts : Nat)
  | commit (ts : Nat)
  | abort (ts : Nat)
  | takeSnap
  deriving DecidableEq, Repr

/-- Apply one MVCC operation, returning the successor state or an error. -/
def MvccManager.applyOp (s : MvccManager) : MvccOp → Except Status MvccManager
  | .start => .ok (s.startTransaction).1
  | .startAt ts => s.startTransactionAtTimestamp ts
  | .commit ts => .ok (s.commitTransaction ts)
  | .abort ts => .ok (s.abortTransaction ts)
  | .takeSnap => .ok s

/-- C5: every MVCC manager operation is infallible except StartTransactionAt,
which fails exactly when the caller-supplied timestamp is not strictly
greater than the current high-water excluding in-flight transactions, and
the only error ever produced is InvalidTimestamp. -/
theorem mvcc_ops_infallible_except_startAt (s : MvccManager) (op : MvccOp) :
    ((∃ e, s.applyOp op = .error e) ↔
        ∃ ts, op = .startAt ts ∧ ¬ s.highWaterExclInFlight < ts) ∧
    (∀ e, s.applyOp op = .error e → e = .InvalidTimestamp) := by
  constructor
  · constructor
    · rintro ⟨e, he⟩
      cases op with
      | start => cases he
      | startAt ts =>
        refine ⟨ts, rfl, ?_⟩
        intro hlt
        simp only [MvccManager.applyOp, MvccManager.startTransactionAtTimestamp,
          if_pos hlt] at he
        exact Except.noConfusion he
      | commit ts => cases he
      | abort ts => cases he
      | takeSnap => cases he
    · rintro ⟨ts, rfl, hnlt⟩
      exact ⟨.InvalidTimestamp, by
        simp only [MvccManager.applyOp, MvccManager.startTransactionAtTimestamp,
          if_neg hnlt]⟩
  · intro e he
    cases op with
    | start => cases he
    | startAt ts =>
      by_cases h : s.highWaterExclInFlight < ts
      · simp only [MvccManager.applyOp, MvccManager.startTransactionAtTimestamp,
          if_pos h] at he
        exact Except.noConfusion he
      · simp only [MvccManager.applyOp, MvccManager.startTransactionAtTimestamp,
          if_neg h] at he
        cases he
        rfl
    | commit ts => cases he
    | abort ts => cases he
    | takeSnap => cases he

/-- Witness for C5 at a concrete state and operation: StartTransactionAt with
a stale timestamp on the initial manager fails with InvalidTimestamp. -/
theorem mvcc_ops_infallible_except_startAt_witness :
    ((∃ e, MvccManager.init.applyOp (.startAt 0) = .error e) ↔
        ∃ ts, (MvccOp.startAt 0) = .startAt ts ∧
          ¬ MvccManager.init.highWaterExclInFlight < ts) ∧
    (∀ e, MvccManager.init.applyOp (.startAt 0) = .error e →
        e = .InvalidTimestamp) :=
  mvcc_ops_infallible_except_startAt MvccManager.init (.startAt 0)

/-- One committed row write of the two-phase-locking write path
(Tablet::StartTransaction, tablet.h lines 84-114): the positions, in one
global order of instants, at which the write acquired its row lock, was
assigned its MVCC timestamp, and appended its mutation to the per-key
mutation log, together with the assigned timestamp. -/
structure RowWrite where
  key : Nat
  acqPos : Nat
  assignPos : Nat
  appendPos : Nat
  ts : Nat
  deriving DecidableEq, Repr

/-- The write path acquires the row lock strictly before the timestamp is
assigned, and appends the mutation after that (tablet.h lines 90-92:
StartTransaction is always done after the relevant row locks are
acquired). -/
def lockBeforeTimestamp (w : RowWrite) : Prop :=
  w.acqPos < w.assignPos ∧ w.assignPos < w.appendPos

/-- The row lock is exclusive and held from acquisition until after the
append (two-phase locking, spec sections 4.2 and 4.3): two distinct writes
on the same key have disjoint lock windows, so one appends before the other
acquires. -/
def exclusiveRowLock (ws : List RowWrite) : Prop :=
  ∀ w1 ∈ ws, ∀ w2 ∈ ws, w1 ≠ w2 → w1.key = w2.key →
    w1.appendPos < w2.acqPos ∨ w2.appendPos < w1.acqPos

/-- Timestamps come from a monotonic clock: a write whose timestamp is
assigned at an earlier instant receives a strictly smaller timestamp
(spec section 3, Timestamp). -/
def monotonicClock (ws : List RowWrite) : Prop :=
  ∀ w1 ∈ ws, ∀ w2 ∈ ws, w1.assignPos < w2.assignPos → w1.ts < w2.ts

/-- C2: for every key and every pair of committed writes on that key,
the one with the smaller timestamp is exactly the one appended earlier to
the mutation log of the key; per key, timestamps are strictly increasing in
append order because the row lock is acquired strictly before the timestamp
is assigned and held past the append. -/
theorem row_lock_order_determines_timestamp_order (ws : List RowWrite)
    (hdisc : ∀ w ∈ ws, lockBeforeTimestamp w)
    (hexcl : exclusiveRowLock ws)
    (hclock : monotonicClock ws) :
    ∀ w1 ∈ ws, ∀ w2 ∈ ws, w1.key = w2.key →
      (w1.ts < w2.ts ↔ w1.appendPos < w2.appendPos) := by
  intro w1 h1 w2 h2 hkey
  by_cases heq : w1 = w2
  · subst heq
    simp
  · obtain ⟨ha1, hb1⟩ := hdisc w1 h1
    obtain ⟨ha2, hb2⟩ := hdisc w2 h2
    rcases hexcl w1 h1 w2 h2 heq hkey with hlt | hlt
    · have hass : w1.assignPos < w2.assignPos := by omega
      have hts := hclock w1 h1 w2 h2 hass
      constructor <;> intro h <;> omega
    · have hass : w2.assignPos < w1.assignPos := by omega
      have hts := hclock w2 h2 w1 h1 hass
      constructor <;> intro h <;> omega

/-- Witness for C2 on a concrete two-write history on one key. -/
theorem row_lock_order_determines_timestamp_order_witness :
    (RowWrite.mk 1 0 1 2 10).ts < (RowWrite.mk 1 3 4 5 20).ts ↔
      (RowWrite.mk 1 0 1 2 10).appendPos < (RowWrite.mk 1 3 4 5 20).appendPos :=
  row_lock_order_determines_timestamp_order
    [RowWrite.mk 1 0 1 2 10, RowWrite.mk 1 3 4 5 20]
    (by unfold lockBeforeTimestamp; decide)
    (by unfold exclusiveRowLock; decide)
    (by unfold monotonicClock; decide)
    (RowWrite.mk 1 0 1 2 10) (by decide)
    (RowWrite.mk 1 3 4 5 20) (by decide) rfl

/-- A row change-list entry: set the (single modelled) value column, or
delete the row (spec section 3, mutation chains). -/
inductive RowChange where
  | setValue (v : Nat)
  | deleteRow
  deriving DecidableEq, Repr

/-- Apply one mutation, filtered by snapshot visibility, to the current
(optional) row value: a visible SET yields that value, a visible DELETE
yields no row, an invisible mutation leaves the value unchanged. -/
def mutStep (snap : MvccSnapshot) (acc : Option Nat) (m : Nat × RowChange) :
    Option Nat :=
  if snap.isVisible m.1 then
    match m.2 with
    | .setValue v => some v
    | .deleteRow => none
  else acc

/-- Apply a mutation chain in order, filtered by snapshot visibility. -/
def applyVisibleMutations (snap : MvccSnapshot) (acc : Option Nat)
    (muts : List (Nat × RowChange)) : Option Nat :=
  muts.foldl (mutStep snap) acc

/-- A MemRowSet row (spec section 3): inserted payload, insertion timestamp,
and the ordered chain of (timestamp, change) mutations. -/
structure RowEntry where
  insertTs : Nat
  insertVal : Nat
  muts : List (Nat × RowChange)
  deriving DecidableEq, Repr

/-- A MemRowSet: rows keyed by (encoded) primary key. -/
abbrev MemRowSet := List (Nat × RowEntry)

/-- The value of a MemRowSet row visible to a snapshot: the row is absent
unless its insertion timestamp is visible; the visible mutations then apply
in chain order. -/
def RowEntry.visibleValue (snap : MvccSnapshot) (e : RowEntry) : Option Nat :=
  if snap.isVisible e.insertTs then
    applyVisibleMutations snap (some e.insertVal) e.muts
  else none

/-- A row of an on-disk layer: immutable base value plus the delta-store
mutations recorded for that row (spec section 3, RowSet). Base data carries
no timestamp. -/
structure DiskRowEntry where
  baseVal : Nat
  deltas : List (Nat × RowChange)
  deriving DecidableEq, Repr

/-- The value of a disk-layer row visible to a snapshot: the base value with
the visible deltas applied in order. -/
def DiskRowEntry.visibleValue (snap : MvccSnapshot) (e : DiskRowEntry) :
    Option Nat :=
  applyVisibleMutations snap (some e.baseVal) e.deltas

/-- An on-disk layer (class Layer in src/src/tablet/layer.h; called RowSet
in src/src/kudu/tablet/tablet.h): base rows keyed by encoded primary key, a
(min-key, max-key) range, and a bloom filter over its keys, modelled as an
over-approximating key list (spec section 3, RowSet). -/
structure Layer where
  rows : List (Nat × DiskRowEntry)
  minKey : Nat
  maxKey : Nat
  bloom : List Nat
  deriving DecidableEq, Repr

/-- Physical presence of a key in the layer (Layer::CheckRowPresent,
layer.h line 135). -/
def Layer.containsKey (rs : Layer) (k : Nat) : Bool :=
  (rs.rows.lookup k).isSome

/-- Range plus bloom admission used before consulting base data: the layer
may contain the key only if its key range admits it and the bloom filter
reports it (spec section 4.3 step 5). -/
def Layer.mayContainKey (rs : Layer) (k : Nat) : Bool :=
  decide (rs.minKey ≤ k) && decide (k ≤ rs.maxKey) && rs.bloom.contains k

/-- Layer::UpdateRow (layer.h lines 131-133), modelled from the spec:
append the change under the given timestamp to the delta store of the row
with that key; NotFound when the key is not present. -/
def Layer.updateRow (rs : Layer) (k ts : Nat) (c : RowChange) :
    Except Status Layer :=
  if rs.containsKey k then
    .ok { rs with rows := rs.rows.map (fun p =>
      if p.1 = k then (p.1, { p.2 with deltas := p.2.deltas ++ [(ts, c)] })
      else p) }
  else .error .NotFound

/-- The visible (key, value) pairs of one layer under a snapshot. -/
def Layer.visibleRows (rs : Layer) (snap : MvccSnapshot) : List (Nat × Nat) :=
  rs.rows.filterMap (fun p =>
    (DiskRowEntry.visibleValue snap p.2).map (fun v => (p.1, v)))

/-- DuplicatingLayer (layer.h lines 211-252), modelled from the spec
(section 4.6) and the header comment (layer.h lines 204-210): a set of old
input layers and one new output layer under construction. During this
window the new output is represented by the delta store that receives the
duplicated mutations. -/
structure DuplicatingLayer where
  old_layers : List Layer
  newDeltas : List (Nat × Nat × RowChange)
  deriving DecidableEq, Repr

/-- Apply a mutation to the first layer of the list that physically
contains the key; NotFound when none does. By invariant I2 at most one
layer contains any key, so the first containing layer is the unique one. -/
def updateFirstContaining : List Layer → Nat → Nat → RowChange →
    Except Status (List Layer)
  | [], _, _, _ => .error .NotFound
  | rs :: rest, k, ts, c =>
    if rs.containsKey k then (rs.updateRow k ts c).map (· :: rest)
    else (updateFirstContaining rest k ts c).map (rs :: ·)

/-- DuplicatingLayer::UpdateRow (layer.h line 217), modelled from the spec:
apply the mutation to the unique old input layer containing the key AND
record the same mutation onto the new output delta store. -/
def DuplicatingLayer.updateRow (d : DuplicatingLayer) (k ts : Nat)
    (c : RowChange) : Except Status DuplicatingLayer :=
  match updateFirstContaining d.old_layers k ts c with
  | .error e => .error e
  | .ok olds => .ok ⟨olds, d.newDeltas ++ [(k, ts, c)]⟩

/-- DuplicatingLayer::CheckRowPresent (layer.h line 219), modelled from the
spec: consults only the old input layers. -/
def DuplicatingLayer.checkRowPresent (d : DuplicatingLayer) (k : Nat) : Bool :=
  d.old_layers.any (fun rs => rs.containsKey k)

/-- DuplicatingLayer::NewRowIterator (layer.h lines 221-222), modelled from
the spec: reads are directed to the union of the old input layers only. -/
def DuplicatingLayer.iterRows (d : DuplicatingLayer) (snap : MvccSnapshot) :
    List (Nat × Nat) :=
  d.old_layers.flatMap (fun rs => rs.visibleRows snap)

lemma updateFirstContaining_append (pre : List Layer) (rs : Layer)
    (post : List Layer) (k ts : Nat) (c : RowChange)
    (hpre : ∀ r ∈ pre, r.containsKey k = false)
    (hrs : rs.containsKey k = true) :
    updateFirstContaining (pre ++ rs :: post) k ts c =
      .ok (pre ++ { rs with rows := rs.rows.map (fun p =>
        if p.1 = k then (p.1, { p.2 with deltas := p.2.deltas ++ [(ts, c)] })
        else p) } :: post) := by
  induction pre with
  | nil =>
    simp only [List.nil_append, updateFirstContaining, hrs, if_pos,
      Layer.updateRow]
    rfl
  | cons q pre ih =>
    have hq : q.containsKey k = false := hpre q (List.mem_cons_self _ _)
    have hpre' : ∀ r ∈ pre, r.containsKey k = false :=
      fun r hr => hpre r (List.mem_cons_of_mem _ hr)
    have hcond : ¬ (q.containsKey k = true) := by
      rw [hq]; exact Bool.false_ne_true
    rw [show updateFirstContaining ((q :: pre) ++ rs :: post) k ts c =
        if q.containsKey k = true then
          (q.updateRow k ts c).map (· :: (pre ++ rs :: post))
        else (updateFirstContaining (pre ++ rs :: post) k ts c).map (q :: ·)
        from rfl,
      if_neg hcond, ih hpre']
    rfl

/-- C4: on a DuplicatingRowSet, UpdateRow applies the mutation to the unique
old input layer containing the key and records the same mutation on the new
output delta store, while CheckRowPresent and NewRowIterator are computed
from the old input layers only, unaffected by the new output. -/
theorem duplicating_layer_routes_mutations_and_reads
    (pre post : List Layer) (rs : Layer) (nd : List (Nat × Nat × RowChange))
    (k ts : Nat) (c : RowChange)
    (hpre : ∀ r ∈ pre, r.containsKey k = false)
    (hrs : rs.containsKey k = true) :
    (DuplicatingLayer.mk (pre ++ rs :: post) nd).updateRow k ts c =
      .ok ⟨pre ++ { rs with rows := rs.rows.map (fun p =>
          if p.1 = k then
            (p.1, { p.2 with deltas := p.2.deltas ++ [(ts, c)] })
          else p) } :: post,
        nd ++ [(k, ts, c)]⟩ ∧
    (∀ nd₁ nd₂ k',
      (DuplicatingLayer.mk (pre ++ rs :: post) nd₁).checkRowPresent k' =
      (DuplicatingLayer.mk (pre ++ rs :: post) nd₂).checkRowPresent k') ∧
    (∀ k', (DuplicatingLayer.mk (pre ++ rs :: post) nd).checkRowPresent k' =
      (pre ++ rs :: post).any (fun r => r.containsKey k')) ∧
    (∀ nd₁ nd₂ snap,
      (DuplicatingLayer.mk (pre ++ rs :: post) nd₁).iterRows snap =
      (DuplicatingLayer.mk (pre ++ rs :: post) nd₂).iterRows snap) ∧
    (∀ snap, (DuplicatingLayer.mk (pre ++ rs :: post) nd).iterRows snap =
      (pre ++ rs :: post).flatMap (fun r => r.visibleRows snap)) := by
  refine ⟨?_, fun _ _ _ => rfl, fun _ => rfl, fun _ _ _ => rfl, fun _ => rfl⟩
  unfold DuplicatingLayer.updateRow
  rw [updateFirstContaining_append pre rs post k ts c hpre hrs]

/-- Witness for C4 on a concrete duplicating layer: two old input layers,
the second containing the key. -/
theorem duplicating_layer_routes_mutations_and_reads_witness :
    (DuplicatingLayer.mk
        ([Layer.mk [] 0 0 []] ++ Layer.mk [(5, ⟨7, [] ⟩)] 5 5 [5] :: []) []).updateRow
        5 3 (.setValue 9) =
      .ok ⟨[Layer.mk [] 0 0 []] ++ { Layer.mk [(5, ⟨7, [] ⟩)] 5 5 [5] with
          rows := (Layer.mk [(5, ⟨7, [] ⟩)] 5 5 [5]).rows.map (fun p =>
            if p.1 = 5 then
              (p.1, { p.2 with deltas := p.2.deltas ++ [(3, .setValue 9)] })
            else p) } :: [],
        [] ++ [(5, 3, .setValue 9)]⟩ ∧
    (∀ nd₁ nd₂ k',
      (DuplicatingLayer.mk ([Layer.mk [] 0 0 []] ++
          Layer.mk [(5, ⟨7, [] ⟩)] 5 5 [5] :: []) nd₁).checkRowPresent k' =
      (DuplicatingLayer.mk ([Layer.mk [] 0 0 []] ++
          Layer.mk [(5, ⟨7, [] ⟩)] 5 5 [5] :: []) nd₂).checkRowPresent k') ∧
    (∀ k', (DuplicatingLayer.mk ([Layer.mk [] 0 0 []] ++
          Layer.mk [(5, ⟨7, [] ⟩)] 5 5 [5] :: []) []).checkRowPresent k' =
      ([Layer.mk [] 0 0 []] ++ Layer.mk [(5, ⟨7, [] ⟩)] 5 5 [5] :: []).any
        (fun r => r.containsKey k')) ∧
    (∀ nd₁ nd₂ snap,
      (DuplicatingLayer.mk ([Layer.mk [] 0 0 []] ++
          Layer.mk [(5, ⟨7, [] ⟩)] 5 5 [5] :: []) nd₁).iterRows snap =
      (DuplicatingLayer.mk ([Layer.mk [] 0 0 []] ++
          Layer.mk [(5, ⟨7, [] ⟩)] 5 5 [5] :: []) nd₂).iterRows snap) ∧
    (∀ snap, (DuplicatingLayer.mk ([Layer.mk [] 0 0 []] ++
          Layer.mk [(5, ⟨7, [] ⟩)] 5 5 [5] :: []) []).iterRows snap =
      ([Layer.mk [] 0 0 []] ++ Layer.mk [(5, ⟨7, [] ⟩)] 5 5 [5] :: []).flatMap
        (fun r => r.visibleRows snap)) :=
  duplicating_layer_routes_mutations_and_reads
    [Layer.mk [] 0 0 []] [] (Layer.mk [(5, ⟨7, [] ⟩)] 5 5 [5]) [] 5 3
    (.setValue 9) (by decide) (by decide)

/-- A rowset as held in the tablet components: an on-disk layer or a
transient DuplicatingRowSet (spec section 4.3 step 6; tablet.h uses RowSet,
layer.h names the classes Layer and DuplicatingLayer). -/
inductive TabletRowSet where
  | disk (d : Layer)
  | dup (d : DuplicatingLayer)
  deriving DecidableEq, Repr

/-- Presence check of one tablet rowset (a DuplicatingRowSet consults its
old inputs only). -/
def TabletRowSet.checkRowPresent : TabletRowSet → Nat → Bool
  | .disk d, k => d.containsKey k
  | .dup d, k => d.checkRowPresent k

/-- Range-plus-bloom admission of one tablet rowset. -/
def TabletRowSet.mayContainKey : TabletRowSet → Nat → Bool
  | .disk d, k => d.mayContainKey k
  | .dup d, k => d.old_layers.any (fun rs => rs.mayContainKey k)

/-- Route a mutation into one tablet rowset: a disk layer appends to its
delta store, a DuplicatingRowSet routes internally to old input and new
output. -/
def TabletRowSet.updateRow : TabletRowSet → Nat → Nat → RowChange →
    Except Status TabletRowSet
  | .disk d, k, ts, c => (d.updateRow k ts c).map .disk
  | .dup d, k, ts, c => (d.updateRow k ts c).map .dup

/-- The immutable components of the tablet storage: the active MemRowSet and
the rowsets (struct TabletComponents, tablet.h lines 542-547). -/
structure TabletComponents where
  memrowset : MemRowSet
  rowsets : List TabletRowSet
  deriving DecidableEq, Repr

/-- Physical presence of a key in the MemRowSet. -/
def memContainsKey (m : MemRowSet) (k : Nat) : Bool := (m.lookup k).isSome

/-- Insert a fresh row into the MemRowSet with the assigned timestamp. -/
def memInsert (m : MemRowSet) (k ts v : Nat) : MemRowSet :=
  (k, ⟨ts, v, []⟩) :: m

/-- Append a mutation to the chain of the MemRowSet row with this key. -/
def memMutate (m : MemRowSet) (k ts : Nat) (c : RowChange) : MemRowSet :=
  m.map (fun p =>
    if p.1 = k then (p.1, { p.2 with muts := p.2.muts ++ [(ts, c)] }) else p)

/-- Tablet::InsertUnlocked (tablet.h lines 153-154), modelled from the spec
(section 4.3 step 5): check the probe against the MemRowSet and each rowset
whose range and bloom admit the key; fail with AlreadyPresent if found,
else insert into the MemRowSet with the assigned timestamp. An error
returns no new components, so the tablet state is unchanged. -/
def insertUnlocked (comps : TabletComponents) (k ts v : Nat) :
    Except Status TabletComponents :=
  if memContainsKey comps.memrowset k ||
      comps.rowsets.any (fun rs => rs.mayContainKey k && rs.checkRowPresent k)
  then .error .AlreadyPresent
  else .ok { comps with memrowset := memInsert comps.memrowset k ts v }

/-- Route a mutation to the first rowset of the list that contains the key;
NotFound when none does. By invariant I2 at most one rowset contains any
key, so the first containing rowset is the unique one. -/
def mutateRowSets : List TabletRowSet → Nat → Nat → RowChange →
    Except Status (List TabletRowSet)
  | [], _, _, _ => .error .NotFound
  | rs :: rest, k, ts, c =>
    if rs.checkRowPresent k then (rs.updateRow k ts c).map (· :: rest)
    else (mutateRowSets rest k ts c).map (rs :: ·)

/-- Tablet::MutateRowUnlocked (tablet.h lines 183-184), modelled from the
spec (section 4.3 step 6): locate the unique rowset containing the key
(MemRowSet, one disk rowset, or a DuplicatingRowSet which routes
internally); fail with NotFound if none, else append a mutation record to
the delta store of that rowset under the assigned timestamp. -/
def mutateRowUnlocked (comps : TabletComponents) (k ts : Nat) (c : RowChange) :
    Except Status TabletComponents :=
  if memContainsKey comps.memrowset k then
    .ok { comps with memrowset := memMutate comps.memrowset k ts c }
  else
    match mutateRowSets comps.rowsets k ts c with
    | .error e => .error e
    | .ok rss => .ok { comps with rowsets := rss }

/-- C6: an insert of a key already present in the tablet (in the MemRowSet,
or in a rowset that physically contains it — whose range and bloom then
admit it, blooms having no false negatives) fails with AlreadyPresent and
produces no new components; an insert of an absent key succeeds and places
the row in the MemRowSet under the assigned timestamp, leaving the rowsets
unchanged. -/
theorem insert_already_present_or_ok (comps : TabletComponents) (k ts v : Nat)
    (hbloom : ∀ rs ∈ comps.rowsets,
      rs.checkRowPresent k = true → rs.mayContainKey k = true) :
    ((memContainsKey comps.memrowset k = true ∨
        ∃ rs ∈ comps.rowsets, rs.checkRowPresent k = true) →
      insertUnlocked comps k ts v = .error .AlreadyPresent) ∧
    ((memContainsKey comps.memrowset k = false ∧
        ∀ rs ∈ comps.rowsets, rs.checkRowPresent k = false) →
      insertUnlocked comps k ts v =
        .ok ⟨memInsert comps.memrowset k ts v, comps.rowsets⟩) := by
  constructor
  · intro hpres
    have hcond : (memContainsKey comps.memrowset k ||
        comps.rowsets.any fun rs =>
          rs.mayContainKey k && rs.checkRowPresent k) = true := by
      rcases hpres with hmem | ⟨rs, hrs, hck⟩
      · simp [hmem]
      · refine Bool.or_eq_true_iff.mpr (Or.inr ?_)
        refine List.any_eq_true.mpr ⟨rs, hrs, ?_⟩
        rw [hbloom rs hrs hck, hck]
        rfl
    unfold insertUnlocked
    rw [if_pos hcond]
  · rintro ⟨hmem, habs⟩
    have hcond : (memContainsKey comps.memrowset k ||
        comps.rowsets.any fun rs =>
          rs.mayContainKey k && rs.checkRowPresent k) = false := by
      rw [Bool.or_eq_false_iff]
      refine ⟨hmem, ?_⟩
      rw [List.any_eq_false]
      intro rs hrs
      rw [habs rs hrs]
      simp
    unfold insertUnlocked
    rw [if_neg (by rw [hcond]; exact Bool.false_ne_true)]

/-- Witness for C6 at concrete inputs: inserting an absent key into an empty
tablet succeeds, and re-inserting the same key then fails AlreadyPresent. -/
theorem insert_already_present_or_ok_witness :
    insertUnlocked (TabletComponents.mk [] []) 4 9 77 =
      .ok ⟨memInsert [] 4 9 77, []⟩ ∧
    insertUnlocked (TabletComponents.mk (memInsert [] 4 9 77) []) 4 11 78 =
      .error .AlreadyPresent :=
  ⟨(insert_already_present_or_ok (TabletComponents.mk [] []) 4 9 77
      (by intro rs hrs; cases hrs)).2 ⟨rfl, by intro rs hrs; cases hrs⟩,
   (insert_already_present_or_ok (TabletComponents.mk (memInsert [] 4 9 77) [])
      4 11 78 (by intro rs hrs; cases hrs)).1 (Or.inl rfl)⟩

lemma mutateRowSets_append (pre : List TabletRowSet) (rs : TabletRowSet)
    (post : List TabletRowSet) (k ts : Nat) (c : RowChange) (rs' : TabletRowSet)
    (hpre : ∀ r ∈ pre, r.checkRowPresent k = false)
    (hrs : rs.checkRowPresent k = true)
    (hupd : rs.updateRow k ts c = .ok rs') :
    mutateRowSets (pre ++ rs :: post) k ts c = .ok (pre ++ rs' :: post) := by
  induction pre with
  | nil =>
    show (if rs.checkRowPresent k = true then
        (rs.updateRow k ts c).map (· :: post)
      else (mutateRowSets post k ts c).map (rs :: ·)) = _
    rw [if_pos hrs, hupd]
    rfl
  | cons q pre ih =>
    have hq : q.checkRowPresent k = false := hpre q (List.mem_cons_self _ _)
    have hpre' : ∀ r ∈ pre, r.checkRowPresent k = false :=
      fun r hr => hpre r (List.mem_cons_of_mem _ hr)
    show (if q.checkRowPresent k = true then
        (q.updateRow k ts c).map (· :: (pre ++ rs :: post))
      else (mutateRowSets (pre ++ rs :: post) k ts c).map (q :: ·)) = _
    rw [if_neg (by rw [hq]; exact Bool.false_ne_true), ih hpre']
    rfl

lemma mutateRowSets_notfound (rss : List TabletRowSet) (k ts : Nat)
    (c : RowChange) (habs : ∀ r ∈ rss, r.checkRowPresent k = false) :
    mutateRowSets rss k ts c = .error .NotFound := by
  induction rss with
  | nil => rfl
  | cons q rest ih =>
    have hq : q.checkRowPresent k = false := habs q (List.mem_cons_self _ _)
    show (if q.checkRowPresent k = true then
        (q.updateRow k ts c).map (· :: rest)
      else (mutateRowSets rest k ts c).map (q :: ·)) = _
    rw [if_neg (by rw [hq]; exact Bool.false_ne_true),
      ih fun r hr => habs r (List.mem_cons_of_mem _ hr)]
    rfl

/-- C7: a mutation of a key present nowhere in the tablet fails with
NotFound and appends no delta record (no new components are produced); a
mutation of a key present in the MemRowSet appends to that chain with the
rowsets untouched; a mutation of a key present in exactly one rowset
(disk or duplicating) updates that rowset through its own UpdateRow and
leaves every other rowset unchanged. -/
theorem mutate_notfound_or_routes_to_unique_rowset
    (comps : TabletComponents) (k ts : Nat) (c : RowChange) :
    ((memContainsKey comps.memrowset k = false ∧
        ∀ r ∈ comps.rowsets, r.checkRowPresent k = false) →
      mutateRowUnlocked comps k ts c = .error .NotFound) ∧
    (memContainsKey comps.memrowset k = true →
      mutateRowUnlocked comps k ts c =
        .ok ⟨memMutate comps.memrowset k ts c, comps.rowsets⟩) ∧
    (∀ pre rs post rs', comps.rowsets = pre ++ rs :: post →
      memContainsKey comps.memrowset k = false →
      (∀ r ∈ pre, r.checkRowPresent k = false) →
      rs.checkRowPresent k = true →
      rs.updateRow k ts c = .ok rs' →
      mutateRowUnlocked comps k ts c =
        .ok ⟨comps.memrowset, pre ++ rs' :: post⟩) := by
  refine ⟨?_, ?_, ?_⟩
  · rintro ⟨hmem, habs⟩
    unfold mutateRowUnlocked
    rw [if_neg (by rw [hmem]; exact Bool.false_ne_true),
      mutateRowSets_notfound comps.rowsets k ts c habs]
  · intro hmem
    unfold mutateRowUnlocked
    rw [if_pos hmem]
  · intro pre rs post rs' hsplit hmem hpre hrs hupd
    unfold mutateRowUnlocked
    rw [if_neg (by rw [hmem]; exact Bool.false_ne_true), hsplit,
      mutateRowSets_append pre rs post k ts c rs' hpre hrs hupd]

/-- Witness for C7 at concrete tablets: a mutation of an absent key fails
NotFound, and a mutation of a key held by the single disk rowset routes to
that rowset. -/
theorem mutate_notfound_or_routes_to_unique_rowset_witness :
    mutateRowUnlocked (TabletComponents.mk [] []) 5 3 (.setValue 9) =
      .error .NotFound ∧
    mutateRowUnlocked (TabletComponents.mk []
        [.disk (Layer.mk [(5, ⟨7, [] ⟩)] 5 5 [5])]) 5 3 (.setValue 9) =
      .ok ⟨[], [] ++ .disk (Layer.mk [(5, ⟨7, [(3, .setValue 9)] ⟩)] 5 5 [5])
        :: []⟩ :=
  ⟨(mutate_notfound_or_routes_to_unique_rowset (TabletComponents.mk [] [])
      5 3 (.setValue 9)).1 ⟨rfl, by intro r hr; cases hr⟩,
   (mutate_notfound_or_routes_to_unique_rowset (TabletComponents.mk []
        [.disk (Layer.mk [(5, ⟨7, [] ⟩)] 5 5 [5])]) 5 3 (.setValue 9)).2.2
     [] (.disk (Layer.mk [(5, ⟨7, [] ⟩)] 5 5 [5])) []
     (.disk (Layer.mk [(5, ⟨7, [(3, .setValue 9)] ⟩)] 5 5 [5]))
     rfl rfl (by intro r hr; cases hr) rfl rfl⟩

/-- All timestamps occurring in a MemRowSet row: the insertion timestamp
and the timestamps of its mutation chain. -/
def RowEntry.timestamps (e : RowEntry) : List Nat :=
  e.insertTs :: e.muts.map Prod.fst

/-- All timestamps occurring in a disk-layer row: its delta timestamps. -/
def DiskRowEntry.timestamps (e : DiskRowEntry) : List Nat :=
  e.deltas.map Prod.fst

/-- All timestamps occurring in a layer. -/
def Layer.timestamps (rs : Layer) : List Nat :=
  rs.rows.flatMap (fun p => p.2.timestamps)

/-- All timestamps a read of this rowset can consult (a DuplicatingRowSet
reads its old inputs only). -/
def TabletRowSet.timestamps : TabletRowSet → List Nat
  | .disk d => d.timestamps
  | .dup dl => dl.old_layers.flatMap Layer.timestamps

/-- All timestamps a read of the tablet components can consult. -/
def componentsTimestamps (c : TabletComponents) : List Nat :=
  c.memrowset.flatMap (fun p => p.2.timestamps) ++
  c.rowsets.flatMap TabletRowSet.timestamps

/-- Whether a mutation chain leaves the row live: the chain ends in
something other than a DELETE (or is empty). -/
def chainLive (muts : List (Nat × RowChange)) : Bool :=
  match muts.getLast? with
  | some (_, .deleteRow) => false
  | _ => true

/-- A MemRowSet row is live when the latest mutation of its chain is not a
DELETE (the insert itself counts when the chain is empty). -/
def RowEntry.liveAtEnd (e : RowEntry) : Bool := chainLive e.muts

/-- A disk-layer row is live when its latest delta is not a DELETE. -/
def DiskRowEntry.liveAtEnd (e : DiskRowEntry) : Bool := chainLive e.deltas

/-- Layer::CountRows (layer.h line 146) under a snapshot: the number of rows
the layer yields to a scan. -/
def Layer.countRows (rs : Layer) (snap : MvccSnapshot) : Nat :=
  (rs.visibleRows snap).length

/-- Row count of one tablet rowset under a snapshot. -/
def TabletRowSet.countRows : TabletRowSet → MvccSnapshot → Nat
  | .disk d, snap => d.countRows snap
  | .dup dl, snap => (dl.iterRows snap).length

/-- Tablet::CountRows (tablet.h lines 258-261), modelled from the spec:
iterate over the MemRowSet and every rowset, counting the rows visible
under the snapshot. -/
def countRows (c : TabletComponents) (snap : MvccSnapshot) : Nat :=
  c.memrowset.countP (fun p => (RowEntry.visibleValue snap p.2).isSome) +
  (c.rowsets.map (fun rs => rs.countRows snap)).sum

/-- The keys of a layer. -/
def Layer.keys (rs : Layer) : List Nat := rs.rows.map Prod.fst

/-- The keys of the rows of a layer whose latest mutation is not a DELETE. -/
def Layer.liveKeys (rs : Layer) : List Nat :=
  (rs.rows.filter (fun p => p.2.liveAtEnd)).map Prod.fst

/-- The keys of one tablet rowset. -/
def TabletRowSet.keys : TabletRowSet → List Nat
  | .disk d => d.keys
  | .dup dl => dl.old_layers.flatMap Layer.keys

/-- The live keys of one tablet rowset. -/
def TabletRowSet.liveKeys : TabletRowSet → List Nat
  | .disk d => d.liveKeys
  | .dup dl => dl.old_layers.flatMap Layer.liveKeys

/-- All keys stored in the tablet components. -/
def allKeys (c : TabletComponents) : List Nat :=
  c.memrowset.map Prod.fst ++ c.rowsets.flatMap TabletRowSet.keys

/-- The keys of the tablet whose latest mutation is not a DELETE. -/
def liveKeys (c : TabletComponents) : List Nat :=
  (c.memrowset.filter (fun p => p.2.liveAtEnd)).map Prod.fst ++
  c.rowsets.flatMap TabletRowSet.liveKeys

lemma length_filterMap_eq_countP {α β : Type} (l : List α) (f : α → Option β) :
    (l.filterMap f).length = l.countP (fun x => (f x).isSome) := by
  induction l with
  | nil => rfl
  | cons a tl ih =>
    cases hf : f a <;>
      simp [List.filterMap_cons, hf, List.countP_cons, ih]

lemma length_flatMap_eq_sum {α β : Type} (l : List α) (f : α → List β) :
    (l.flatMap f).length = (l.map (fun a => (f a).length)).sum := by
  induction l with
  | nil => rfl
  | cons a tl ih =>
    simp [List.flatMap_cons, ih]

lemma flatMap_sublist {α β : Type} (l : List α) (f g : α → List β)
    (h : ∀ a ∈ l, (f a).Sublist (g a)) :
    (l.flatMap f).Sublist (l.flatMap g) := by
  induction l with
  | nil => exact List.Sublist.refl _
  | cons a tl ih =>
    simp only [List.flatMap_cons]
    exact (h a (List.mem_cons_self _ _)).append
      (ih fun x hx => h x (List.mem_cons_of_mem _ hx))

lemma applyVisibleMutations_all_visible (snap : MvccSnapshot) (v : Nat)
    (muts : List (Nat × RowChange))
    (hvis : ∀ m ∈ muts, snap.isVisible m.1 = true) :
    applyVisibleMutations snap (some v) muts =
      match muts.getLast? with
      | none => some v
      | some (_, .setValue w) => some w
      | some (_, .deleteRow) => none := by
  rcases List.eq_nil_or_concat muts with rfl | ⟨l, a, rfl⟩
  · rfl
  · simp only [List.concat_eq_append] at hvis ⊢
    have ha : snap.isVisible a.1 = true :=
      hvis a (List.mem_append_right l (List.mem_singleton.mpr rfl))
    unfold applyVisibleMutations
    rw [List.foldl_append, List.getLast?_concat]
    show mutStep snap _ a = _
    rw [mutStep, if_pos ha]
    cases a with
    | mk t c => cases c <;> rfl

lemma diskRow_visible_isSome (snap : MvccSnapshot) (e : DiskRowEntry)
    (hvis : ∀ t ∈ e.timestamps, snap.isVisible t = true) :
    (e.visibleValue snap).isSome = e.liveAtEnd := by
  unfold DiskRowEntry.visibleValue DiskRowEntry.liveAtEnd chainLive
  rw [applyVisibleMutations_all_visible snap e.baseVal e.deltas
    (fun m hm => hvis m.1 (List.mem_map.mpr ⟨m, hm, rfl⟩))]
  cases hl : e.deltas.getLast? with
  | none => rfl
  | some a => cases a with
    | mk t c => cases c <;> rfl

lemma memRow_visible_isSome (snap : MvccSnapshot) (e : RowEntry)
    (hvis : ∀ t ∈ e.timestamps, snap.isVisible t = true) :
    (e.visibleValue snap).isSome = e.liveAtEnd := by
  have hins : snap.isVisible e.insertTs = true :=
    hvis e.insertTs (List.mem_cons_self _ _)
  unfold RowEntry.visibleValue RowEntry.liveAtEnd chainLive
  rw [if_pos hins,
    applyVisibleMutations_all_visible snap e.insertVal e.muts
      (fun m hm => hvis m.1 (List.mem_cons_of_mem _
        (List.mem_map.mpr ⟨m, hm, rfl⟩)))]
  cases hl : e.muts.getLast? with
  | none => rfl
  | some a => cases a with
    | mk t c => cases c <;> rfl

lemma layer_countRows_eq_liveKeys (rs : Layer) (snap : MvccSnapshot)
    (hvis : ∀ t ∈ rs.timestamps, snap.isVisible t = true) :
    rs.countRows snap = rs.liveKeys.length := by
  unfold Layer.countRows Layer.visibleRows Layer.liveKeys
  rw [length_filterMap_eq_countP, List.length_map,
    ← List.countP_eq_length_filter]
  apply List.countP_congr
  intro p hp
  have h1 : ∀ t ∈ p.2.timestamps, snap.isVisible t = true := fun t ht =>
    hvis t (List.mem_flatMap.mpr ⟨p, hp, ht⟩)
  rw [show (Option.map (fun v => (p.1, v))
      (DiskRowEntry.visibleValue snap p.2)).isSome =
      (DiskRowEntry.visibleValue snap p.2).isSome from by
        cases DiskRowEntry.visibleValue snap p.2 <;> rfl,
    diskRow_visible_isSome snap p.2 h1]

/-- C9: under a snapshot that includes all committed writes of the tablet,
CountRows returns exactly the number of distinct keys whose latest mutation
is not a DELETE (the live keys form a duplicate-free list whose length is
the count). -/
theorem count_rows_equals_live_distinct_keys (c : TabletComponents)
    (snap : MvccSnapshot)
    (hvis : ∀ t ∈ componentsTimestamps c, snap.isVisible t = true)
    (hnodup : (allKeys c).Nodup) :
    countRows c snap = (liveKeys c).length ∧ (liveKeys c).Nodup := by
  constructor
  · unfold countRows liveKeys
    rw [List.length_append, List.length_map, ← List.countP_eq_length_filter]
    have hmem : c.memrowset.countP
        (fun p => (RowEntry.visibleValue snap p.2).isSome) =
        c.memrowset.countP (fun p => p.2.liveAtEnd) := by
      apply List.countP_congr
      intro p hp
      rw [memRow_visible_isSome snap p.2 (fun t ht =>
        hvis t (List.mem_append_left _ (List.mem_flatMap.mpr ⟨p, hp, ht⟩)))]
    rw [hmem, length_flatMap_eq_sum]
    congr 1
    congr 1
    apply List.map_congr_left
    intro rs hrs
    have hts : ∀ t ∈ rs.timestamps, snap.isVisible t = true := fun t ht =>
      hvis t (List.mem_append_right _ (List.mem_flatMap.mpr ⟨rs, hrs, ht⟩))
    cases rs with
    | disk d =>
      exact layer_countRows_eq_liveKeys d snap hts
    | dup dl =>
      show (dl.iterRows snap).length = (dl.old_layers.flatMap _).length
      unfold DuplicatingLayer.iterRows
      rw [length_flatMap_eq_sum, length_flatMap_eq_sum]
      congr 1
      apply List.map_congr_left
      intro lay hlay
      exact layer_countRows_eq_liveKeys lay snap (fun t ht =>
        hts t (List.mem_flatMap.mpr ⟨lay, hlay, ht⟩))
  · refine List.Nodup.sublist ?_ hnodup
    unfold liveKeys allKeys
    refine List.Sublist.append ((List.filter_sublist _).map _) ?_
    apply flatMap_sublist
    intro rs hrs
    cases rs with
    | disk d => exact (List.filter_sublist _).map _
    | dup dl =>
      apply flatMap_sublist
      intro lay hlay
      exact (List.filter_sublist _).map _

/-- Witness for C9 at a concrete tablet: one MemRowSet row updated then
live, one disk rowset holding a deleted row, all timestamps visible. -/
theorem count_rows_equals_live_distinct_keys_witness :
    countRows (TabletComponents.mk [(1, ⟨1, 10, [(2, .setValue 11)] ⟩)]
        [.disk (Layer.mk [(5, ⟨7, [(3, .deleteRow)] ⟩)] 5 5 [5])]) ⟨4, []⟩ =
      (liveKeys (TabletComponents.mk [(1, ⟨1, 10, [(2, .setValue 11)] ⟩)]
        [.disk (Layer.mk [(5, ⟨7, [(3, .deleteRow)] ⟩)] 5 5 [5])])).length ∧
    (liveKeys (TabletComponents.mk [(1, ⟨1, 10, [(2, .setValue 11)] ⟩)]
        [.disk (Layer.mk [(5, ⟨7, [(3, .deleteRow)] ⟩)] 5 5 [5])])).Nodup :=
  count_rows_equals_live_distinct_keys
    (TabletComponents.mk [(1, ⟨1, 10, [(2, .setValue 11)] ⟩)]
      [.disk (Layer.mk [(5, ⟨7, [(3, .deleteRow)] ⟩)] 5 5 [5])]) ⟨4, []⟩
    (by decide) (by decide)

/-- A timestamp at or below S1 is visible to any snapshot at least as recent
as S1 whose in-flight timestamps all exceed S1. -/
lemma isVisible_of_le_s1 (snap : MvccSnapshot) (s1 t : Nat) (h1 : t ≤ s1)
    (hhw1 : s1 ≤ snap.commitHighWater)
    (hif : ∀ u ∈ snap.inFlightSet, s1 < u) :
    snap.isVisible t = true := by
  have hmem : t ∉ snap.inFlightSet := fun hm => absurd (hif t hm) (by omega)
  simp [MvccSnapshot.isVisible, hmem, Nat.le_trans h1 hhw1]

/-- A timestamp above the high water is invisible. -/
lemma isVisible_of_hw_lt (snap : MvccSnapshot) (t : Nat)
    (h : snap.commitHighWater < t) : snap.isVisible t = false := by
  simp [MvccSnapshot.isVisible, show ¬ t ≤ snap.commitHighWater from by omega]

/-- Visibility under a plain high-water snapshot with nothing in flight. -/
lemma isVisible_plain (s1 t : Nat) :
    (MvccSnapshot.mk s1 []).isVisible t = decide (t ≤ s1) := by
  simp [MvccSnapshot.isVisible]

lemma applyVisibleMutations_invisible (snap : MvccSnapshot) (acc : Option Nat)
    (l : List (Nat × RowChange))
    (h : ∀ m ∈ l, snap.isVisible m.1 = false) :
    applyVisibleMutations snap acc l = acc := by
  induction l generalizing acc with
  | nil => rfl
  | cons m rest ih =>
    show applyVisibleMutations snap (mutStep snap acc m) rest = acc
    rw [show mutStep snap acc m = acc from by
      rw [mutStep, if_neg (by simp [h m (List.mem_cons_self _ _)])]]
    exact ih acc fun x hx => h x (List.mem_cons_of_mem _ hx)

/-- Dropping the mutations outside the window (S1, S2] does not change the
fold when every timestamp exceeds S1 and the snapshot high water is at most
S2: the dropped mutations are exactly the invisible ones. -/
lemma applyVisibleMutations_filter_window (snap : MvccSnapshot)
    (s1 s2 : Nat) (acc : Option Nat) (l : List (Nat × RowChange))
    (hgt : ∀ m ∈ l, s1 < m.1) (hhw2 : snap.commitHighWater ≤ s2) :
    applyVisibleMutations snap acc
      (l.filter (fun m => decide (s1 < m.1) && decide (m.1 ≤ s2))) =
    applyVisibleMutations snap acc l := by
  induction l generalizing acc with
  | nil => rfl
  | cons m rest ih =>
    have hm : s1 < m.1 := hgt m (List.mem_cons_self _ _)
    have hrest : ∀ x ∈ rest, s1 < x.1 :=
      fun x hx => hgt x (List.mem_cons_of_mem _ hx)
    by_cases h2 : m.1 ≤ s2
    · rw [show (m :: rest).filter
          (fun m => decide (s1 < m.1) && decide (m.1 ≤ s2)) =
          m :: rest.filter (fun m => decide (s1 < m.1) && decide (m.1 ≤ s2))
        from by
          rw [List.filter_cons, if_pos (by simp [hm, h2])]]
      show applyVisibleMutations snap (mutStep snap acc m) _ = _
      exact ih (mutStep snap acc m) hrest
    · have hinv : snap.isVisible m.1 = false :=
        isVisible_of_hw_lt snap m.1 (by omega)
      rw [show (m :: rest).filter
          (fun m => decide (s1 < m.1) && decide (m.1 ≤ s2)) =
          rest.filter (fun m => decide (s1 < m.1) && decide (m.1 ≤ s2))
        from by
          rw [List.filter_cons, if_neg (by simp [h2])]]
      rw [ih acc hrest]
      show _ = applyVisibleMutations snap (mutStep snap acc m) rest
      rw [show mutStep snap acc m = acc from by
        rw [mutStep, if_neg (by rw [hinv]; exact Bool.false_ne_true)]]

/-- Splitting the fold of a sorted chain at S1: folding the visible
mutations equals folding the part at or below S1 under S1 alone and then
folding the window (S1, S2] under the snapshot. -/
lemma applyVisibleMutations_split (snap : MvccSnapshot) (s1 s2 : Nat)
    (l : List (Nat × RowChange)) (acc : Option Nat)
    (hsorted : l.Pairwise (fun a b => a.1 < b.1))
    (hhw1 : s1 ≤ snap.commitHighWater)
    (hhw2 : snap.commitHighWater ≤ s2)
    (hif : ∀ t ∈ snap.inFlightSet, s1 < t) :
    applyVisibleMutations snap acc l =
      applyVisibleMutations snap
        (applyVisibleMutations (MvccSnapshot.mk s1 []) acc l)
        (l.filter (fun m => decide (s1 < m.1) && decide (m.1 ≤ s2))) := by
  induction l generalizing acc with
  | nil => rfl
  | cons m rest ih =>
    obtain ⟨hm, hrest⟩ := List.pairwise_cons.mp hsorted
    by_cases h1 : m.1 ≤ s1
    · have hvis : snap.isVisible m.1 = true :=
        isVisible_of_le_s1 snap s1 m.1 h1 hhw1 hif
      have hvis1 : (MvccSnapshot.mk s1 []).isVisible m.1 = true := by
        rw [isVisible_plain]; exact decide_eq_true h1
      have hstep : mutStep (MvccSnapshot.mk s1 []) acc m = mutStep snap acc m := by
        rw [mutStep, mutStep, if_pos hvis1, if_pos hvis]
      rw [show (m :: rest).filter
          (fun m => decide (s1 < m.1) && decide (m.1 ≤ s2)) =
          rest.filter (fun m => decide (s1 < m.1) && decide (m.1 ≤ s2))
        from by
          rw [List.filter_cons, if_neg (by simp; omega)]]
      show applyVisibleMutations snap (mutStep snap acc m) rest = _
      rw [show applyVisibleMutations (MvccSnapshot.mk s1 []) acc (m :: rest) =
          applyVisibleMutations (MvccSnapshot.mk s1 [])
            (mutStep snap acc m) rest from by
        show applyVisibleMutations _ (mutStep _ acc m) rest = _
        rw [hstep]]
      exact ih (mutStep snap acc m) hrest
    · have hall : ∀ x ∈ m :: rest, s1 < x.1 := by
        intro x hx
        rcases List.mem_cons.mp hx with rfl | hx
        · omega
        · have := hm x hx; omega
      rw [applyVisibleMutations_invisible (MvccSnapshot.mk s1 []) acc
          (m :: rest) (fun x hx => by
            rw [isVisible_plain]
            exact decide_eq_false (by have := hall x hx; omega)),
        applyVisibleMutations_filter_window snap s1 s2 acc (m :: rest)
          hall hhw2]

/-- Every DELETE of a mutation chain is its final element: a deleted key is
re-inserted as a fresh row rather than mutated further (invariant I2). -/
def deleteIsLast : List (Nat × RowChange) → Bool
  | [] => true
  | (_, .deleteRow) :: rest => rest.isEmpty
  | (_, .setValue _) :: rest => deleteIsLast rest

lemma fold_none_imp_ends_delete (s1 : Nat) :
    ∀ (l : List (Nat × RowChange)) (v : Nat), deleteIsLast l = true →
    applyVisibleMutations (MvccSnapshot.mk s1 []) (some v) l = none →
    ∃ l' t, l = l' ++ [(t, RowChange.deleteRow)] ∧ t ≤ s1 := by
  intro l
  induction l with
  | nil => intro v _ h; cases h
  | cons m rest ih =>
    intro v hdel hfold
    cases m with
    | mk t c =>
      cases c with
      | deleteRow =>
        have hrest : rest = [] := by
          have : rest.isEmpty = true := hdel
          exact List.isEmpty_iff.mp this
        subst hrest
        by_cases h1 : t ≤ s1
        · exact ⟨[], t, rfl, h1⟩
        · exfalso
          have : applyVisibleMutations (MvccSnapshot.mk s1 [])
              (some v) [(t, RowChange.deleteRow)] = some v := by
            show mutStep _ (some v) (t, RowChange.deleteRow) = some v
            rw [mutStep, if_neg (by
              rw [isVisible_plain]
              exact fun hc => h1 (of_decide_eq_true hc))]
          rw [this] at hfold
          cases hfold
      | setValue w =>
        have hdel' : deleteIsLast rest = true := hdel
        have hfold' : ∃ u, applyVisibleMutations (MvccSnapshot.mk s1 [])
            (some u) rest = none := by
          by_cases hv : (MvccSnapshot.mk s1 []).isVisible t = true
          · refine ⟨w, ?_⟩
            have : mutStep (MvccSnapshot.mk s1 []) (some v)
                (t, RowChange.setValue w) = some w := by
              rw [mutStep, if_pos hv]
            rw [show applyVisibleMutations (MvccSnapshot.mk s1 []) (some v)
                ((t, RowChange.setValue w) :: rest) =
                applyVisibleMutations (MvccSnapshot.mk s1 [])
                  (mutStep (MvccSnapshot.mk s1 []) (some v)
                    (t, RowChange.setValue w)) rest from rfl,
              this] at hfold
            exact hfold
          · refine ⟨v, ?_⟩
            have : mutStep (MvccSnapshot.mk s1 []) (some v)
                (t, RowChange.setValue w) = some v := by
              rw [mutStep, if_neg hv]
            rw [show applyVisibleMutations (MvccSnapshot.mk s1 []) (some v)
                ((t, RowChange.setValue w) :: rest) =
                applyVisibleMutations (MvccSnapshot.mk s1 [])
                  (mutStep (MvccSnapshot.mk s1 []) (some v)
                    (t, RowChange.setValue w)) rest from rfl,
              this] at hfold
            exact hfold
        obtain ⟨u, hu⟩ := hfold'
        obtain ⟨l', t', heq, ht'⟩ := ih u hdel' hu
        exact ⟨(t, RowChange.setValue w) :: l', t', by rw [heq]; rfl, ht'⟩

/-- The output row the flush/compaction writes for one input row, as left
after Phase 3 completes (Tablet::DoCompactionOrFlush, tablet.h lines
358-360, modelled from spec section 4.5): the base value is the input row
collapsed under the first snapshot S1 (Phase 2 merge-read filtered by S1);
the output delta store holds every input mutation with timestamp in
(S1, S2], placed there either by DuplicatingRowSet duplication during
Phase 2 or by the Phase 3 re-apply of missed deltas. A row with no visible
version under S1 is not written to the output. -/
def compactEntry (s1 s2 : Nat) (e : RowEntry) : Option DiskRowEntry :=
  match e.visibleValue (MvccSnapshot.mk s1 []) with
  | none => none
  | some v => some ⟨v, e.muts.filter
      (fun m => decide (s1 < m.1) && decide (m.1 ≤ s2))⟩

/-- The published output of a completed flush/compaction over the frozen
inputs (merged over their disjoint keys). -/
def compactionOutput (s1 s2 : Nat) (input : List (Nat × RowEntry)) :
    List (Nat × DiskRowEntry) :=
  input.filterMap (fun p => (compactEntry s1 s2 p.2).map (fun e => (p.1, e)))

/-- The row value a snapshot sees for a key through the components that
existed before the operation began (the frozen inputs). -/
def visibleOld (snap : MvccSnapshot) (input : List (Nat × RowEntry))
    (k : Nat) : Option Nat :=
  (input.lookup k).bind (RowEntry.visibleValue snap)

/-- The row value a snapshot sees for a key through the components
published after the swap (the new output rowset). -/
def visibleNew (snap : MvccSnapshot) (out : List (Nat × DiskRowEntry))
    (k : Nat) : Option Nat :=
  (out.lookup k).bind (DiskRowEntry.visibleValue snap)

/-- Well-formedness of a frozen input row for a flush/compaction with first
snapshot S1: the row was inserted at or before S1 (ensured by the Phase 1
wait for all earlier writers), its chain timestamps strictly increase
(invariant I1), and any DELETE ends the chain. -/
def wellFormedEntry (s1 : Nat) (e : RowEntry) : Prop :=
  e.insertTs ≤ s1 ∧ e.muts.Pairwise (fun a b => a.1 < b.1) ∧
  deleteIsLast e.muts = true

lemma compactEntry_visible (s1 s2 : Nat) (e : RowEntry) (snap : MvccSnapshot)
    (hwf : wellFormedEntry s1 e)
    (hhw1 : s1 ≤ snap.commitHighWater)
    (hhw2 : snap.commitHighWater ≤ s2)
    (hif : ∀ t ∈ snap.inFlightSet, s1 < t) :
    (compactEntry s1 s2 e).bind (DiskRowEntry.visibleValue snap) =
      e.visibleValue snap := by
  obtain ⟨hins, hsorted, hdel⟩ := hwf
  have hvisins : snap.isVisible e.insertTs = true :=
    isVisible_of_le_s1 snap s1 e.insertTs hins hhw1 hif
  have hvisins1 : (MvccSnapshot.mk s1 []).isVisible e.insertTs = true := by
    rw [isVisible_plain]; exact decide_eq_true hins
  unfold compactEntry
  cases hr : e.visibleValue (MvccSnapshot.mk s1 []) with
  | none =>
    rw [RowEntry.visibleValue, if_pos hvisins1] at hr
    obtain ⟨l', t, heq, ht⟩ :=
      fold_none_imp_ends_delete s1 e.muts e.insertVal hdel hr
    show none = e.visibleValue snap
    rw [RowEntry.visibleValue, if_pos hvisins, heq]
    unfold applyVisibleMutations
    rw [List.foldl_append]
    show none = mutStep snap _ (t, RowChange.deleteRow)
    rw [mutStep, if_pos (isVisible_of_le_s1 snap s1 t ht hhw1 hif)]
  | some v =>
    show DiskRowEntry.visibleValue snap ⟨v, _⟩ = e.visibleValue snap
    rw [RowEntry.visibleValue, if_pos hvisins,
      applyVisibleMutations_split snap s1 s2 e.muts (some e.insertVal)
        hsorted hhw1 hhw2 hif]
    rw [RowEntry.visibleValue, if_pos hvisins1] at hr
    rw [hr]
    rfl

lemma lookup_mem {β : Type} {l : List (Nat × β)} {k : Nat} {b : β}
    (h : l.lookup k = some b) : (k, b) ∈ l := by
  induction l with
  | nil => cases h
  | cons p rest ih =>
    by_cases hk : k = p.1
    · subst hk
      rw [List.lookup, beq_self_eq_true] at h
      cases h
      exact List.mem_cons_self _ _
    · rw [List.lookup, beq_eq_false_iff_ne.mpr hk] at h
      exact List.mem_cons_of_mem _ (ih h)

lemma lookup_compactionOutput_absent (s1 s2 : Nat)
    (input : List (Nat × RowEntry)) (k : Nat)
    (habs : k ∉ input.map Prod.fst) :
    (compactionOutput s1 s2 input).lookup k = none := by
  induction input with
  | nil => rfl
  | cons p rest ih =>
    obtain ⟨k', e'⟩ := p
    have hk : k ≠ k' := by
      intro hk
      apply habs
      rw [List.map_cons, hk]
      exact List.mem_cons_self _ _
    have habs' : k ∉ rest.map Prod.fst := by
      intro hm
      exact habs (by rw [List.map_cons]; exact List.mem_cons_of_mem _ hm)
    unfold compactionOutput at ih ⊢
    rw [List.filterMap_cons]
    cases compactEntry s1 s2 e' with
    | none => exact ih habs'
    | some d =>
      show List.lookup k ((k', d) :: _) = none
      rw [List.lookup, beq_eq_false_iff_ne.mpr hk]
      exact ih habs'

lemma lookup_compactionOutput (s1 s2 : Nat) (input : List (Nat × RowEntry))
    (k : Nat) (hnd : (input.map Prod.fst).Nodup) :
    (compactionOutput s1 s2 input).lookup k =
      (input.lookup k).bind (compactEntry s1 s2) := by
  induction input with
  | nil => rfl
  | cons p rest ih =>
    obtain ⟨k', e'⟩ := p
    rw [List.map_cons, List.nodup_cons] at hnd
    obtain ⟨hp, hnd'⟩ := hnd
    unfold compactionOutput at ih ⊢
    rw [List.filterMap_cons]
    by_cases hk : k = k'
    · subst hk
      rw [show List.lookup k ((k, e') :: rest) = some e' from by
        rw [List.lookup, beq_self_eq_true]]
      cases hce : compactEntry s1 s2 e' with
      | none =>
        show List.lookup k (compactionOutput s1 s2 rest) = _
        rw [lookup_compactionOutput_absent s1 s2 rest k hp, Option.some_bind,
          hce]
      | some d =>
        show List.lookup k ((k, d) :: _) = _
        rw [List.lookup, beq_self_eq_true, Option.some_bind, hce]
    · rw [show List.lookup k ((k', e') :: rest) = List.lookup k rest from by
        rw [List.lookup, beq_eq_false_iff_ne.mpr hk]]
      cases hce : compactEntry s1 s2 e' with
      | none => exact ih hnd'
      | some d =>
        show List.lookup k ((k', d) :: _) = _
        rw [List.lookup, beq_eq_false_iff_ne.mpr hk]
        exact ih hnd'

/-- C1 (amended): for every completed flush/compaction over frozen inputs
with disjoint keys whose rows were inserted by S1, whose chains are sorted
with DELETE only final, and for every MVCC snapshot at least as recent as
the Phase 1 wait (commitHighWater at least S1 and no in-flight timestamp at
or below S1) whose commitHighWater is at most the second snapshot S2 of
Phase 3, every key has the same visible row value through the published
output as through the components that existed before the operation. -/
theorem flush_compact_preserves_visible_rows (s1 s2 : Nat)
    (input : List (Nat × RowEntry)) (snap : MvccSnapshot)
    (hnd : (input.map Prod.fst).Nodup)
    (hwf : ∀ p ∈ input, wellFormedEntry s1 p.2)
    (hhw1 : s1 ≤ snap.commitHighWater)
    (hhw2 : snap.commitHighWater ≤ s2)
    (hif : ∀ t ∈ snap.inFlightSet, s1 < t) :
    ∀ k, visibleNew snap (compactionOutput s1 s2 input) k =
      visibleOld snap input k := by
  intro k
  unfold visibleNew visibleOld
  rw [lookup_compactionOutput s1 s2 input k hnd]
  cases hl : input.lookup k with
  | none => rfl
  | some e =>
    rw [Option.some_bind]
    have hmem : (k, e) ∈ input := lookup_mem hl
    exact compactEntry_visible s1 s2 e snap (hwf (k, e) hmem) hhw1 hhw2 hif

/-- Witness for C1 (amended) on a concrete compaction: one row inserted at
timestamp 1 and updated at timestamp 2, S1 = 1, S2 = 2, read under the
snapshot with commitHighWater 2. -/
theorem flush_compact_preserves_visible_rows_witness :
    visibleNew ⟨2, []⟩
        (compactionOutput 1 2 [(1, ⟨1, 10, [(2, .setValue 11)] ⟩)]) 1 =
      visibleOld ⟨2, []⟩ [(1, ⟨1, 10, [(2, .setValue 11)] ⟩)] 1 :=
  flush_compact_preserves_visible_rows 1 2
    [(1, ⟨1, 10, [(2, .setValue 11)] ⟩)] ⟨2, []⟩
    (by decide)
    (by
      intro p hp
      rcases List.mem_singleton.mp hp with rfl
      refine ⟨by decide, ?_, by decide⟩
      exact List.pairwise_singleton _ _)
    (by decide) (by decide) (by intro t ht; cases ht) 1

/-- Counterexample to C1 as stated: the claim quantifies over every
snapshot whose commitHighWater is at most S2, but a snapshot older than S1
differs, because the compacted base row carries no timestamp. With one row
inserted at timestamp 1, S1 = S2 = 1, and the snapshot of high water 0, the
old components show no row while the published output shows it. -/
theorem flush_compact_claim_counterexample :
    (MvccSnapshot.mk 0 []).commitHighWater ≤ 1 ∧
    (∀ p ∈ [((1 : Nat), RowEntry.mk 1 10 [])], wellFormedEntry 1 p.2) ∧
    visibleNew ⟨0, []⟩ (compactionOutput 1 1 [(1, ⟨1, 10, [] ⟩)]) 1 ≠
      visibleOld ⟨0, []⟩ [(1, ⟨1, 10, [] ⟩)] 1 := by
  refine ⟨by decide, ?_, by decide⟩
  intro p hp
  rcases List.mem_singleton.mp hp with rfl
  exact ⟨by decide, List.Pairwise.nil, by decide⟩

/-- State of the flush/compaction selection machinery, modelled from the
spec (section 4.5, Selecting inputs) and the headers: which rowset ids have
their compact_flush_lock held, which operations are in progress with which
input rowsets, and which rowsets are DuplicatingRowSets, whose
compact_flush_lock is the permanently held always_locked_ (layer.h lines
234-237 and 251; compact_select_lock_ declared tablet.h lines 456-459).
Because PickRowSetsToCompact runs under the compact-select mutex, each
selection is one atomic step. -/
structure CompactSelectState where
  held : List Nat
  active : List (Nat × List Nat)
  dups : List Nat
  deriving DecidableEq, Repr

/-- Initial state for a given set of duplicating rowsets: their locks are
held from construction, nothing else is. -/
def CompactSelectState.start (dups : List Nat) : CompactSelectState :=
  ⟨dups, [], dups⟩

/-- Steps of the selection machinery: a selection (under the compact-select
mutex) try-locks every candidate, excluding any whose compact_flush_lock is
already held, and an operation that finishes releases the locks of its
inputs. -/
inductive CompactStep : CompactSelectState → CompactSelectState → Prop where
  | select (s : CompactSelectState) (op : Nat) (inputs : List Nat)
      (hfresh : op ∉ s.active.map Prod.fst)
      (hnodup : inputs.Nodup)
      (htry : ∀ r ∈ inputs, r ∉ s.held) :
      CompactStep s ⟨inputs ++ s.held, (op, inputs) :: s.active, s.dups⟩
  | finish (s : CompactSelectState) (op : Nat) (inputs : List Nat)
      (hact : (op, inputs) ∈ s.active) :
      CompactStep s ⟨s.held.filter (fun r => !(decide (r ∈ inputs))),
        s.active.erase (op, inputs), s.dups⟩

/-- States reachable by the selection machinery from a start state. -/
inductive CompactReachable (dups : List Nat) : CompactSelectState → Prop where
  | start : CompactReachable dups (CompactSelectState.start dups)
  | step {s s' : CompactSelectState} : CompactReachable dups s →
      CompactStep s s' → CompactReachable dups s'

/-- Inductive invariant of the selection machinery. -/
def CompactInv (s : CompactSelectState) : Prop :=
  (∀ a ∈ s.active, ∀ b ∈ s.active, a ≠ b → ∀ r ∈ a.2, r ∉ b.2) ∧
  (∀ a ∈ s.active, ∀ r ∈ a.2, r ∈ s.held) ∧
  (∀ d ∈ s.dups, d ∈ s.held) ∧
  (∀ a ∈ s.active, ∀ r ∈ a.2, r ∉ s.dups) ∧
  (s.active.map Prod.fst).Nodup

lemma compact_inv_preserved {s s' : CompactSelectState}
    (hinv : CompactInv s) (hstep : CompactStep s s') : CompactInv s' := by
  obtain ⟨inv1, inv2, inv3, inv4, inv5⟩ := hinv
  cases hstep with
  | select op inputs hfresh hnodup htry =>
    refine ⟨?_, ?_, ?_, ?_, ?_⟩
    · intro a ha b hb hab r har
      rcases List.mem_cons.mp ha with rfl | ha <;>
        rcases List.mem_cons.mp hb with hb' | hb
      · exact absurd hb' (fun h => hab h.symm)
      · intro hrb
        exact htry r har (inv2 b hb r hrb)
      · rcases hb' with rfl
        intro hrb
        exact htry r hrb (inv2 a ha r har)
      · exact inv1 a ha b hb hab r har
    · intro a ha r har
      rcases List.mem_cons.mp ha with rfl | ha
      · exact List.mem_append_left _ har
      · exact List.mem_append_right _ (inv2 a ha r har)
    · intro d hd
      exact List.mem_append_right _ (inv3 d hd)
    · intro a ha r har
      rcases List.mem_cons.mp ha with rfl | ha
      · exact fun hdup => htry r har (inv3 r hdup)
      · exact inv4 a ha r har
    · rw [List.map_cons]
      exact List.nodup_cons.mpr ⟨hfresh, inv5⟩
  | finish op inputs hact =>
    have hactive_nodup : s.active.Nodup := inv5.of_map
    have hmem_erase : ∀ a, a ∈ s.active.erase (op, inputs) →
        a ∈ s.active ∧ a ≠ (op, inputs) := by
      intro a ha
      have := (List.Nodup.mem_erase_iff hactive_nodup).mp ha
      exact ⟨this.2, this.1⟩
    refine ⟨?_, ?_, ?_, ?_, ?_⟩
    · intro a ha b hb hab r har
      exact inv1 a (hmem_erase a ha).1 b (hmem_erase b hb).1 hab r har
    · intro a ha r har
      obtain ⟨hamem, hane⟩ := hmem_erase a ha
      rw [List.mem_filter]
      refine ⟨inv2 a hamem r har, ?_⟩
      have : r ∉ inputs := inv1 a hamem (op, inputs) hact hane r har
      simp [this]
    · intro d hd
      rw [List.mem_filter]
      refine ⟨inv3 d hd, ?_⟩
      have : d ∉ inputs := fun hmem => inv4 (op, inputs) hact d hmem hd
      simp [this]
    · intro a ha r har
      exact inv4 a (hmem_erase a ha).1 r har
    · exact inv5.sublist ((s.active.erase_sublist (op, inputs)).map Prod.fst)

lemma compact_inv_reachable {dups : List Nat} {s : CompactSelectState}
    (hr : CompactReachable dups s) : CompactInv s := by
  induction hr with
  | start =>
    refine ⟨?_, ?_, ?_, ?_, ?_⟩ <;>
      simp [CompactSelectState.start, CompactInv]
  | step hr hstep ih => exact compact_inv_preserved ih hstep

/-- C8: in every reachable state of the selection machinery, no rowset is
among the inputs of two distinct in-progress flush/compactions (selection
runs under the compact-select mutex and try-locks each candidate
compact_flush_lock), and no DuplicatingRowSet is ever among the inputs of
any operation, its compact_flush_lock being permanently held. -/
theorem at_most_one_compaction_per_rowset (dups : List Nat)
    (s : CompactSelectState) (hr : CompactReachable dups s) :
    (∀ a ∈ s.active, ∀ b ∈ s.active, a ≠ b → ∀ r ∈ a.2, r ∉ b.2) ∧
    (∀ a ∈ s.active, ∀ r ∈ a.2, r ∉ s.dups) := by
  obtain ⟨inv1, _, _, inv4, _⟩ := compact_inv_reachable hr
  exact ⟨inv1, inv4⟩

/-- Witness for C8 at a concrete reachable state: a duplicating rowset 0
exists, and one compaction with input rowset 2 is in progress. -/
theorem at_most_one_compaction_per_rowset_witness :
    (∀ a ∈ (CompactSelectState.mk ([2] ++ [0]) [(1, [2])] [0]).active,
      ∀ b ∈ (CompactSelectState.mk ([2] ++ [0]) [(1, [2])] [0]).active,
        a ≠ b → ∀ r ∈ a.2, r ∉ b.2) ∧
    (∀ a ∈ (CompactSelectState.mk ([2] ++ [0]) [(1, [2])] [0]).active,
      ∀ r ∈ a.2, r ∉ (CompactSelectState.mk ([2] ++ [0]) [(1, [2])] [0]).dups) :=
  at_most_one_compaction_per_rowset [0] _
    (CompactReachable.step CompactReachable.start
      (CompactStep.select (CompactSelectState.start [0]) 1 [2]
        (by decide) (by decide) (by decide)))

/-- LayerWriter state (layer.h lines 45-90): the constructor (lines 47-57)
initializes finished_ to false and written_count_ to 0. The rows appended
so far are tracked so that what written_count counts can be stated. -/
structure LayerWriter where
  finished : Bool
  written_count : Nat
  rows : List Nat
  deriving DecidableEq, Repr

/-- A LayerWriter as constructed and opened: finished_ = false,
written_count_ = 0, nothing appended yet (layer.h lines 54-56). -/
def LayerWriter.opened : LayerWriter := ⟨false, 0, []⟩

/-- Modelled from the spec: LayerWriter::WriteRow (layer.h lines 61-65)
appends one row to the layer; its body is absent from src/, so the count
update is modelled from the documented meaning of written_count. -/
def LayerWriter.writeRow (w : LayerWriter) (r : Nat) : LayerWriter :=
  ⟨w.finished, w.written_count + 1, w.rows ++ [r]⟩

/-- Modelled from the spec: LayerWriter::Finish (layer.h line 67) completes
the layer and sets finished_. -/
def LayerWriter.finish (w : LayerWriter) : LayerWriter :=
  ⟨true, w.written_count, w.rows⟩

/-- LayerWriter::written_count (layer.h lines 69-72): CHECK(finished_)
aborts the process unless Finish has completed; the abort is modelled as
none, and otherwise the stored count is returned. -/
def LayerWriter.writtenCount (w : LayerWriter) : Option Nat :=
  if w.finished then some w.written_count else none

lemma foldl_writeRow (rs : List Nat) (w : LayerWriter) :
    (rs.foldl LayerWriter.writeRow w).finished = w.finished ∧
    (rs.foldl LayerWriter.writeRow w).written_count =
      w.written_count + rs.length := by
  induction rs generalizing w with
  | nil => exact ⟨rfl, rfl⟩
  | cons r rest ih =>
    obtain ⟨h1, h2⟩ := ih (w.writeRow r)
    refine ⟨h1, ?_⟩
    rw [List.foldl_cons, h2]
    show w.written_count + 1 + rest.length = _
    rw [List.length_cons]
    omega

/-- C10: written_count has the precondition that Finish has completed (a
caller that has not finished observes the CHECK abort, modelled as none),
and when the precondition holds it returns exactly the number of rows
appended via WriteRow since the writer was opened. -/
theorem written_count_requires_finish (rs : List Nat) :
    (∀ (w : LayerWriter) (n : Nat), w.writtenCount = some n →
      w.finished = true) ∧
    (rs.foldl LayerWriter.writeRow LayerWriter.opened).writtenCount = none ∧
    ((rs.foldl LayerWriter.writeRow LayerWriter.opened).finish).writtenCount
      = some rs.length := by
  obtain ⟨h1, h2⟩ := foldl_writeRow rs LayerWriter.opened
  refine ⟨?_, ?_, ?_⟩
  · intro w n h
    by_contra hfin
    rw [LayerWriter.writtenCount, if_neg hfin] at h
    cases h
  · rw [LayerWriter.writtenCount,
      if_neg (by rw [h1]; exact Bool.false_ne_true)]
  · show (LayerWriter.mk true _ _).writtenCount = _
    rw [LayerWriter.writtenCount, if_pos rfl, h2,
      show LayerWriter.opened.written_count = 0 from rfl, Nat.zero_add]

/-- Witness for C10 at a concrete writer: two rows written, then
finished. -/
theorem written_count_requires_finish_witness :
    (∀ (w : LayerWriter) (n : Nat), w.writtenCount = some n →
      w.finished = true) ∧
    ([10, 20].foldl LayerWriter.writeRow LayerWriter.opened).writtenCount
      = none ∧
    (([10, 20].foldl LayerWriter.writeRow LayerWriter.opened).finish).writtenCount
      = some [10, 20].length :=
  written_count_requires_finish [10, 20]

end Kudu
